import Mathlib

/-!
Verification of the nsbench DNS benchmarking tool (src/main.rs) against its
natural-language specification.

The development shallow-embeds the metrics record `RunDetails` and the parts of
`main.rs` that the specified properties talk about:

* `RunDetails.addAssign`    : the `AddAssign` impl (main.rs:56-62);
* `performQueriesUpdate`    : the body of the worker lookup loop (main.rs:105-123);
* `successRate` / `report`  : the final summary computation (main.rs:229-242);
* `aggStep` / `runAgg`      : the aggregator thread (main.rs:192-215);
* `awaitReady`              : the blocking ready-channel receive (main.rs:188-190);
* a trace model of one worker plus its per-worker sampler thread (main.rs:64-127);
* a labelled transition system for the coordinator, the start barrier and the
  termination flag (main.rs:162-227).

Machine integers are embedded as `Nat` with explicit reduction modulo `2 ^ 64`
(`u64`) or `2 ^ 128` (`u128`) wherever the source performs arithmetic that can
wrap (release-profile semantics); theorems that state exact arithmetic add the
corresponding no-overflow bounds as hypotheses.
-/

def w64 : Nat := 2 ^ 64

def w128 : Nat := 2 ^ 128

/-- The metrics record (main.rs:31-36).  `successes` and `failures` are `u64`,
`duration` (the smoothed latency, in nanoseconds) is `u128`. -/
structure RunDetails where
  successes : Nat
  failures : Nat
  duration : Nat
deriving DecidableEq

/-- `Default for RunDetails` (main.rs:46-54): all fields zero. -/
def RunDetails.default : RunDetails := ⟨0, 0, 0⟩

/-- `RunDetails::reset` (main.rs:39-44): zeroes every field. -/
def RunDetails.reset (_ : RunDetails) : RunDetails := ⟨0, 0, 0⟩

/-- `AddAssign for RunDetails` (main.rs:56-62), `self += rhs`:
`duration = (rhs.duration + self.duration) / 2` (u128 sum, integer halving),
`successes += rhs.successes`, `failures += rhs.failures` (u64 sums). -/
def RunDetails.addAssign (self rhs : RunDetails) : RunDetails :=
  { duration := ((rhs.duration + self.duration) % w128) / 2
    successes := (self.successes + rhs.successes) % w64
    failures := (self.failures + rhs.failures) % w64 }

/-- Body of the worker lookup loop (main.rs:105-123).  On a successful lookup the
worker increments `successes` and sets `duration` to the integer average of the
elapsed time of this lookup and the previous `duration`; on a failed lookup it
increments `failures` only. -/
def performQueriesUpdate (d : RunDetails) (ok : Bool) (elapsed : Nat) : RunDetails :=
  if ok then
    { d with successes := (d.successes + 1) % w64
             duration := ((elapsed + d.duration) % w128) / 2 }
  else
    { d with failures := (d.failures + 1) % w64 }

/-- The worker loop run over a finite list of lookup outcomes
(`(ok, elapsed nanoseconds)` pairs), starting from local details `d`. -/
def runWorkerLoop (d : RunDetails) (outs : List (Bool × Nat)) : RunDetails :=
  outs.foldl (fun acc o => performQueriesUpdate acc o.1 o.2) d

/-- Number of successful lookups in a list of outcomes. -/
def countOk : List (Bool × Nat) → Nat
  | [] => 0
  | (true, _) :: rest => countOk rest + 1
  | (false, _) :: rest => countOk rest

/-- Number of failed lookups in a list of outcomes. -/
def countErr : List (Bool × Nat) → Nat
  | [] => 0
  | (true, _) :: rest => countErr rest
  | (false, _) :: rest => countErr rest + 1

/-- One step of the fixed-weight smoothing applied to `duration` on a success. -/
def emaStep (prev lat : Nat) : Nat := ((lat + prev) % w128) / 2

/-- The grand total kept by the aggregator thread (main.rs:192-198): a fold of
`RunDetails.addAssign` over the received samples, starting from the all-zero
default. -/
def aggFinal (samples : List RunDetails) : RunDetails :=
  samples.foldl RunDetails.addAssign RunDetails.default

/-- Result of the success-rate computation (main.rs:236-239), which is performed
in `f64` on `u64` counter values.  The denominator is the wrapping `u64` sum
`overall.successes + overall.failures`.  When that sum wraps or is zero, the
`f64` division by `0.0` gives IEEE NaN if the numerator is also `0.0` and
positive infinity otherwise.  A nonzero denominator is modelled exactly over
`Rat`, abstracting from `f64` rounding. -/
inductive FVal where
  | nan
  | inf
  | num (q : Rat)
deriving DecidableEq

/-- The success-rate expression `(successes as f64 / (successes + failures) as f64) * 100.0`
(main.rs:238): the denominator addition is `u64` and wraps modulo `2 ^ 64`. -/
def successRate (s f : Nat) : FVal :=
  if (s + f) % w64 = 0 then (if s = 0 then FVal.nan else FVal.inf)
  else FVal.num ((s : Rat) / (((s + f) % w64 : Nat) : Rat) * 100)

/-- The requests-per-second expression `overall.successes / args.time_secs`
(main.rs:241): `u64` integer division, which panics when `time_secs = 0`.
The panic is embedded as `none`. -/
def requestsPerSec (s t : Nat) : Option Nat :=
  if t = 0 then none else some (s / t)

/-- The whole reporting step (main.rs:229-242) reduced to its two computed
numbers.  `none` means the program panics (crashes) while printing the report;
otherwise the printed pair is `(success rate, requests per second)`. -/
def report (overall : RunDetails) (t : Nat) : Option (FVal × Nat) :=
  match requestsPerSec overall.successes t with
  | none => none
  | some r => some (successRate overall.successes overall.failures, r)

/-- Claim C2 as stated: whenever `successes + failures = 0` or the run duration
is `0`, reporting neither crashes nor prints NaN. -/
def claimC2 : Prop :=
  ∀ (overall : RunDetails) (t : Nat),
    overall.successes + overall.failures = 0 ∨ t = 0 →
      report overall t ≠ none ∧ successRate overall.successes overall.failures ≠ FVal.nan

/-- Outcome of the AwaitingReady phase.  `aborted` is a loud failure (the
`unwrap` on a channel error panics with a message); `hangs` means the receive
blocks forever. -/
inductive AwaitOutcome where
  | completed
  | aborted
  | hangs
deriving DecidableEq

/-- Semantics of the `n` blocking receives on the ready channel
(main.rs:188-190).  `readySends` is the total number of ready signals that the
workers ever send; `liveSenders` is the number of sender handles that are never
dropped.  A receive yields a message while one is available; it returns an
error (and the `unwrap` panics, aborting loudly) only once every sender handle
has been dropped; otherwise it blocks forever. -/
def awaitReady (n readySends liveSenders : Nat) : AwaitOutcome :=
  if n ≤ readySends then AwaitOutcome.completed
  else if liveSenders = 0 then AwaitOutcome.aborted
  else AwaitOutcome.hangs

/-- The AwaitingReady phase as `main` actually runs it: `init_s` is cloned into
each worker but the original handle stays alive in `main` for the whole run
(main.rs:166-190), so at least one sender handle is always live. -/
def awaitReadyMain (n readySends : Nat) : AwaitOutcome :=
  awaitReady n readySends 1

/-- Claim C7 as stated: if fewer than `n` ready signals are ever sent, the
coordinator fails loudly (aborts) instead of blocking forever. -/
def claimC7 : Prop :=
  ∀ n readySends : Nat, readySends < n → awaitReadyMain n readySends = AwaitOutcome.aborted

/-- State of the aggregator thread (main.rs:193-195): the grand total, the
1-second rolling bucket, and the `Instant` of the last flush, embedded as
nanoseconds since an arbitrary origin. -/
structure AggState where
  totals : RunDetails
  temp : RunDetails
  start : Nat

/-- One iteration of the aggregator receive loop (main.rs:196-211) on the
arrival of sample `arr.1` at wall-clock time `arr.2` (nanoseconds): both
accumulators absorb the sample; then, if more than one whole second has elapsed
since the last flush (`duration_since(start).as_secs() > 1`), the bucket is
printed (returned as `some`) and reset and the flush clock restarts. -/
def aggStep (st : AggState) (arr : RunDetails × Nat) : AggState × Option RunDetails :=
  let totals := st.totals.addAssign arr.1
  let temp := st.temp.addAssign arr.1
  if (arr.2 - st.start) / 1000000000 > 1 then
    ({ totals := totals, temp := RunDetails.default, start := arr.2 }, some temp)
  else
    ({ totals := totals, temp := temp, start := st.start }, none)

/-- The aggregator loop over a finite arrival sequence, collecting the flushed
progress lines. -/
def runAgg : AggState → List (RunDetails × Nat) → AggState × List RunDetails
  | st, [] => (st, [])
  | st, a :: rest =>
    let r := aggStep st a
    let tl := runAgg r.1 rest
    (tl.1, (match r.2 with | none => [] | some d => [d]) ++ tl.2)

/-- Claim C9 as stated: the bucket is flushed exactly when more than one second
of wall-clock time has elapsed since the last flush, and the grand total is a
pure fold of the samples, unaffected by flushing. -/
def claimC9 : Prop :=
  (∀ (st : AggState) (arr : RunDetails × Nat),
      (aggStep st arr).2.isSome = true ↔ 1000000000 < arr.2 - st.start) ∧
  (∀ (st : AggState) (arrs : List (RunDetails × Nat)),
      (runAgg st arrs).1.totals = List.foldl RunDetails.addAssign st.totals (arrs.map Prod.fst))

/-- Events of one worker thread together with its companion sampler (the
per-worker informer thread, main.rs:92-100), interleaved in wall-clock order.
All three touch the shared local `RunDetails` under its mutex, so each event is
atomic:

* `rec ok lat`  : the worker records one lookup outcome (main.rs:105-123);
* `tick`        : the sampler wakes, sends a snapshot of the local details to
                  the aggregator channel and resets them (main.rs:96-98);
* `setFlag`     : the worker, after exiting its loop, stores `true` into the
                  sampler stop flag (main.rs:125).

The worker performs all of its `rec` events and then one `setFlag`
(main.rs:105-125); the sampler loop re-checks the stop flag before each sleep,
so after `setFlag` it can perform at most one further `tick` (the one whose
sleep was in progress when the flag was set) and then exits; the scheduler may
also delay it so that it observes the flag without ticking again.  Note that
main.rs contains no send of the final local details after the join at
main.rs:126: whatever the sampler has not forwarded by its last tick is never
sent. -/
inductive WEv where
  | record (ok : Bool) (lat : Nat)
  | tick
  | setFlag
deriving DecidableEq

/-- Whether an event is a lookup record. -/
def WEv.isRec : WEv → Bool
  | WEv.record _ _ => true
  | _ => false

/-- State of one worker pipeline: the mutex-protected local details and the
samples already pushed onto the aggregator channel. -/
structure WSt where
  loc : RunDetails
  sent : List RunDetails
deriving DecidableEq

/-- Effect of one event on the worker pipeline state. -/
def wstep (s : WSt) (e : WEv) : WSt :=
  match e with
  | WEv.record ok lat => { s with loc := performQueriesUpdate s.loc ok lat }
  | WEv.tick => { loc := RunDetails.default, sent := s.sent ++ [s.loc] }
  | WEv.setFlag => s

/-- Run of one worker pipeline from the freshly defaulted local details
(main.rs:84). -/
def wrun (tr : List WEv) : WSt := tr.foldl wstep ⟨RunDetails.default, []⟩

/-- What may follow the `setFlag` event: the sampler either exits directly or
performs exactly one last tick and then exits. -/
def postFlagOk : List WEv → Bool
  | [] => true
  | [WEv.tick] => true
  | _ => false

/-- Complete schedules of one worker pipeline: lookup records and sampler
ticks in any interleaving, then the stop-flag store, then at most one final
tick. -/
def validTrace : List WEv → Bool
  | [] => false
  | WEv.setFlag :: rest => postFlagOk rest
  | _ :: rest => validTrace rest

/-- Schedules in which the sampler performs a final tick after the stop flag
is set (the common timing: the worker joins the sampler, which wakes once more
and forwards everything recorded since the previous tick). -/
def hasFinalTick : List WEv → Bool
  | [] => false
  | WEv.setFlag :: rest => decide (rest = [WEv.tick])
  | _ :: rest => hasFinalTick rest

/-- Number of lookups the worker actually counted in a schedule. -/
def recCount : List WEv → Nat
  | [] => 0
  | WEv.record _ _ :: rest => recCount rest + 1
  | _ :: rest => recCount rest

/-- Total attempts recorded in one `RunDetails`. -/
def sfSum (d : RunDetails) : Nat := d.successes + d.failures

/-- Total attempts across a list of samples. -/
def sentSum (l : List RunDetails) : Nat := (l.map sfSum).sum

/-- Claim C1 as stated, at one worker (the claim quantifies over all worker
counts N at least 1, so it asserts this in particular): for every complete
schedule of the worker and its sampler, the successes plus failures in the
aggregated total of the forwarded samples equal the number of lookups the
worker counted by exit time. -/
def claimC1 : Prop :=
  ∀ tr : List WEv, validTrace tr = true →
    sfSum (aggFinal (wrun tr).sent) = recCount tr

/-- Per-worker control phase in the coordination model: not yet ready, ready
signal sent (blocked on the barrier mutex), past the barrier and running the
lookup loop, or exited the loop. -/
inductive WPhase where
  | start
  | ready
  | acquired
  | exited
deriving DecidableEq

/-- Labels of the coordination transition system for `n` workers, covering the
start barrier and the termination flag (main.rs:162-227):

* `sendReady i` : worker `i` sends on `init_done` (main.rs:102);
* `recvReady`   : the coordinator receives one ready signal (main.rs:188-190);
* `release`     : the coordinator drops the barrier mutex guard (main.rs:217);
* `acquireB i`  : worker `i` acquires and immediately drops the barrier mutex
                  (main.rs:103);
* `startIter i` : worker `i` observes `finished == false` and begins one
                  iteration of its lookup loop (main.rs:105-106);
* `endIter i`   : the in-flight lookup of worker `i` completes and its local
                  counters are updated (main.rs:107-122);
* `exitLoop i`  : worker `i` observes `finished == true` and leaves the loop
                  (main.rs:105);
* `setTerm`     : the coordinator stores `true` into `finished` (main.rs:220). -/
inductive Lab (n : Nat) where
  | sendReady (i : Fin n)
  | recvReady
  | release
  | acquireB (i : Fin n)
  | startIter (i : Fin n)
  | endIter (i : Fin n)
  | exitLoop (i : Fin n)
  | setTerm
deriving DecidableEq

/-- State of the coordination model.  `doneAfterTerm` is ghost state counting,
per worker, the lookups that complete after the termination flag is set. -/
structure St (n : Nat) where
  phase : Fin n → WPhase
  inFlight : Fin n → Bool
  doneAfterTerm : Fin n → Nat
  pendingReady : Nat
  recvs : Nat
  released : Bool
  term : Bool

/-- Initial state: all workers at start, nothing in flight, no ready signals,
barrier mutex held by the coordinator (taken at main.rs:172 before any worker
is spawned), termination flag false (main.rs:169). -/
def initSt (n : Nat) : St n :=
  { phase := fun _ => WPhase.start
    inFlight := fun _ => false
    doneAfterTerm := fun _ => 0
    pendingReady := 0
    recvs := 0
    released := false
    term := false }

/-- One atomic step of the coordination model.  Guards encode the program
order of each thread and the semantics of the primitives: a ready receive
needs a pending send (sync_channel); the coordinator releases the barrier only
after its `n` receives and holds the mutex until then, so `acquireB` requires
`released`; the loop condition is re-read only at iteration boundaries, so
`startIter` requires the termination flag to be unset (the atomic load is
modelled as reading the current flag value), while an in-flight lookup may
complete regardless; the coordinator sets the flag once, after the release
(its program order: release at main.rs:217, sleep, store at main.rs:220). -/
inductive Step : {n : Nat} → St n → Lab n → St n → Prop where
  | sendReady {n : Nat} (s : St n) (i : Fin n) (h : s.phase i = WPhase.start) :
      Step s (Lab.sendReady i)
        { s with phase := Function.update s.phase i WPhase.ready
                 pendingReady := s.pendingReady + 1 }
  | recvReady {n : Nat} (s : St n) (h : 0 < s.pendingReady) (h2 : s.recvs < n) :
      Step s Lab.recvReady
        { s with pendingReady := s.pendingReady - 1, recvs := s.recvs + 1 }
  | release {n : Nat} (s : St n) (h : s.recvs = n) (h2 : s.released = false) :
      Step s Lab.release { s with released := true }
  | acquireB {n : Nat} (s : St n) (i : Fin n) (h : s.phase i = WPhase.ready)
      (hr : s.released = true) :
      Step s (Lab.acquireB i) { s with phase := Function.update s.phase i WPhase.acquired }
  | startIter {n : Nat} (s : St n) (i : Fin n) (h : s.phase i = WPhase.acquired)
      (hf : s.inFlight i = false) (ht : s.term = false) :
      Step s (Lab.startIter i) { s with inFlight := Function.update s.inFlight i true }
  | endIterRun {n : Nat} (s : St n) (i : Fin n) (hf : s.inFlight i = true)
      (ht : s.term = false) :
      Step s (Lab.endIter i) { s with inFlight := Function.update s.inFlight i false }
  | endIterTerm {n : Nat} (s : St n) (i : Fin n) (hf : s.inFlight i = true)
      (ht : s.term = true) :
      Step s (Lab.endIter i)
        { s with inFlight := Function.update s.inFlight i false
                 doneAfterTerm := Function.update s.doneAfterTerm i (s.doneAfterTerm i + 1) }
  | exitLoop {n : Nat} (s : St n) (i : Fin n) (h : s.phase i = WPhase.acquired)
      (hf : s.inFlight i = false) (ht : s.term = true) :
      Step s (Lab.exitLoop i) { s with phase := Function.update s.phase i WPhase.exited }
  | setTerm {n : Nat} (s : St n) (hr : s.released = true) (ht : s.term = false) :
      Step s Lab.setTerm { s with term := true }

/-- Finite executions of the coordination model, as the list of labels taken. -/
inductive Reach : {n : Nat} → St n → List (Lab n) → St n → Prop where
  | refl {n : Nat} (s : St n) : Reach s [] s
  | head {n : Nat} {s t u : St n} {l : Lab n} {tr : List (Lab n)} :
      Step s l t → Reach t tr u → Reach s (l :: tr) u

/-- Occurrences of one element in a list. -/
def countE {α : Type} [DecidableEq α] (e : α) : List α → Nat
  | [] => 0
  | x :: xs => (if x = e then 1 else 0) + countE e xs

/-- Number of ready-signal sends in a label list. -/
def countSends {n : Nat} : List (Lab n) → Nat
  | [] => 0
  | Lab.sendReady _ :: xs => 1 + countSends xs
  | _ :: xs => countSends xs

/-- Indicator of a ready-signal send. -/
def sendIndicator {n : Nat} : Lab n → Nat
  | Lab.sendReady _ => 1
  | _ => 0

/-- Invariant: a worker past the barrier implies the barrier was released. -/
def GoodR {n : Nat} (s : St n) : Prop :=
  ∀ i : Fin n, (s.phase i = WPhase.acquired ∨ s.phase i = WPhase.exited) → s.released = true

/-- Invariant: before the termination flag no lookup has completed past it, an
in-flight lookup has not yet been counted as completing past it, and each
worker completes at most one lookup past it. -/
def GoodT {n : Nat} (s : St n) : Prop :=
  ∀ i : Fin n, (s.term = false → s.doneAfterTerm i = 0) ∧
    (s.inFlight i = true → s.doneAfterTerm i = 0) ∧ s.doneAfterTerm i ≤ 1

/-- Claim C3: on a successful lookup the worker increments `successes` and
folds the elapsed time into `duration` by fixed-weight averaging; on a failed
lookup it increments `failures` and leaves `duration` untouched.  Stated over a
whole run of the loop: the counters count outcomes exactly (absent `u64`
overflow) and the final `duration` is the smoothing fold over the elapsed times
of the successful lookups only. -/
theorem worker_loop_counts (outs : List (Bool × Nat)) (d : RunDetails)
    (hs : d.successes + countOk outs < w64) (hf : d.failures + countErr outs < w64) :
    (runWorkerLoop d outs).successes = d.successes + countOk outs ∧
    (runWorkerLoop d outs).failures = d.failures + countErr outs ∧
    (runWorkerLoop d outs).duration =
      ((outs.filter (fun o => o.1)).map (fun o => o.2)).foldl emaStep d.duration := by
  induction outs generalizing d with
  | nil => exact ⟨rfl, rfl, rfl⟩
  | cons o rest ih =>
    obtain ⟨ok, lat⟩ := o
    cases ok with
    | true =>
      have hcount : countOk ((true, lat) :: rest) = countOk rest + 1 := rfl
      have hcerr : countErr ((true, lat) :: rest) = countErr rest := rfl
      rw [hcount] at hs
      have hs1 : d.successes + 1 < w64 := by omega
      have hmod : (d.successes + 1) % w64 = d.successes + 1 := Nat.mod_eq_of_lt hs1
      have hstep : runWorkerLoop d ((true, lat) :: rest) =
          runWorkerLoop (performQueriesUpdate d true lat) rest := rfl
      have hupd : performQueriesUpdate d true lat =
          { d with successes := (d.successes + 1) % w64
                   duration := ((lat + d.duration) % w128) / 2 } := rfl
      have ih1 := ih { d with successes := (d.successes + 1) % w64
                              duration := ((lat + d.duration) % w128) / 2 }
        (by simp only [hmod]; omega) (by rw [hcerr] at hf; exact hf)
      refine ⟨?_, ?_, ?_⟩
      · rw [hstep, hupd, ih1.1]; simp only [hmod]; omega
      · rw [hstep, hupd, ih1.2.1, hcerr]
      · rw [hstep, hupd, ih1.2.2]
        simp only [List.filter_cons, List.map_cons]
        rfl
    | false =>
      have hcount : countOk ((false, lat) :: rest) = countOk rest := rfl
      have hcerr : countErr ((false, lat) :: rest) = countErr rest + 1 := rfl
      rw [hcerr] at hf
      have hf1 : d.failures + 1 < w64 := by omega
      have hmod : (d.failures + 1) % w64 = d.failures + 1 := Nat.mod_eq_of_lt hf1
      have hstep : runWorkerLoop d ((false, lat) :: rest) =
          runWorkerLoop (performQueriesUpdate d false lat) rest := rfl
      have hupd : performQueriesUpdate d false lat =
          { d with failures := (d.failures + 1) % w64 } := rfl
      have ih1 := ih { d with failures := (d.failures + 1) % w64 }
        (by rw [hcount] at hs; exact hs) (by simp only [hmod]; omega)
      refine ⟨?_, ?_, ?_⟩
      · rw [hstep, hupd, ih1.1, hcount]
      · rw [hstep, hupd, ih1.2.1]; simp only [hmod]; omega
      · rw [hstep, hupd, ih1.2.2]
        simp only [List.filter_cons]
        rfl

/-- Witness for `worker_loop_counts` on a concrete run: one success taking
10 ns then one failure, from zeroed details. -/
theorem worker_loop_counts_witness :
    (runWorkerLoop RunDetails.default [(true, 10), (false, 5)]).successes = 0 + 1 ∧
    (runWorkerLoop RunDetails.default [(true, 10), (false, 5)]).failures = 0 + 1 ∧
    (runWorkerLoop RunDetails.default [(true, 10), (false, 5)]).duration =
      (([(true, 10), (false, 5)].filter (fun o => o.1)).map (fun o => o.2)).foldl
        emaStep RunDetails.default.duration :=
  worker_loop_counts [(true, 10), (false, 5)] RunDetails.default (by decide) (by decide)

/-- Claim C4: the `RunDetails` merge adds the two success counts and the two
failure counts and halves the sum of the two durations; it is commutative in
its two arguments, yet folding samples through an accumulator is
order-dependent for `duration`: latencies 10 and 0 accumulated in the two
orders give different results. -/
theorem merge_commutative_order_dependent :
    (∀ a b : RunDetails, a.addAssign b = b.addAssign a) ∧
    (∀ a b : RunDetails, a.successes + b.successes < w64 →
      (a.addAssign b).successes = a.successes + b.successes) ∧
    (∀ a b : RunDetails, a.failures + b.failures < w64 →
      (a.addAssign b).failures = a.failures + b.failures) ∧
    (∀ a b : RunDetails, a.duration + b.duration < w128 →
      (a.addAssign b).duration = (a.duration + b.duration) / 2) ∧
    (List.foldl RunDetails.addAssign RunDetails.default
        [⟨0, 0, 10⟩, ⟨0, 0, 0⟩]).duration ≠
      (List.foldl RunDetails.addAssign RunDetails.default
        [⟨0, 0, 0⟩, ⟨0, 0, 10⟩]).duration := by
  refine ⟨?_, ?_, ?_, ?_, ?_⟩
  · intro a b
    cases a; cases b
    simp only [RunDetails.addAssign, RunDetails.mk.injEq]
    exact ⟨Nat.add_comm _ _ ▸ rfl, Nat.add_comm _ _ ▸ rfl, Nat.add_comm _ _ ▸ rfl⟩
  · intro a b h
    simpa [RunDetails.addAssign] using Nat.mod_eq_of_lt h
  · intro a b h
    simpa [RunDetails.addAssign] using Nat.mod_eq_of_lt h
  · intro a b h
    have hc : b.duration + a.duration = a.duration + b.duration := Nat.add_comm _ _
    simp only [RunDetails.addAssign]
    rw [hc, Nat.mod_eq_of_lt h]
  · decide

/-- Witness for `merge_commutative_order_dependent`: the exact-sum clauses at
concrete small records. -/
theorem merge_commutative_witness :
    (RunDetails.addAssign ⟨1, 2, 3⟩ ⟨4, 5, 6⟩).successes = 1 + 4 ∧
    (RunDetails.addAssign ⟨1, 2, 3⟩ ⟨4, 5, 6⟩).failures = 2 + 5 ∧
    (RunDetails.addAssign ⟨1, 2, 3⟩ ⟨4, 5, 6⟩).duration = (3 + 6) / 2 :=
  ⟨merge_commutative_order_dependent.2.1 ⟨1, 2, 3⟩ ⟨4, 5, 6⟩ (by decide),
   merge_commutative_order_dependent.2.2.1 ⟨1, 2, 3⟩ ⟨4, 5, 6⟩ (by decide),
   merge_commutative_order_dependent.2.2.2.1 ⟨1, 2, 3⟩ ⟨4, 5, 6⟩ (by decide)⟩

/-- Claim C2 counterexample: with zero attempts and zero run duration, the
reporting step crashes (integer divide-by-zero panic embedded as `none`) and
the success-rate expression is NaN, so the claimed defined error state does not
exist. -/
theorem report_zero_cex : ¬ claimC2 := by
  intro h
  have h2 := h ⟨0, 0, 0⟩ 0 (Or.inl rfl)
  exact h2.1 rfl

/-- Claim C2 amended: with `successes + failures = 0` the success rate is NaN
and is printed as-is; with run duration 0 the requests-per-second integer
division panics (the program crashes mid-report); with a nonzero duration the
report always prints, NaN included, so no defined error state is signalled in
either case. -/
theorem report_zero_behavior (overall : RunDetails) (t : Nat) :
    (overall.successes + overall.failures = 0 →
      successRate overall.successes overall.failures = FVal.nan) ∧
    (t = 0 → report overall t = none) ∧
    (t ≠ 0 → report overall t =
      some (successRate overall.successes overall.failures, overall.successes / t)) := by
  refine ⟨?_, fun h => by simp [report, requestsPerSec, h],
    fun h => by simp [report, requestsPerSec, h]⟩
  intro h
  have hs : overall.successes = 0 := by omega
  have hf : overall.failures = 0 := by omega
  simp [successRate, h, hs, hf]

/-- Witness for `report_zero_behavior` at the all-zero record and zero
duration. -/
theorem report_zero_behavior_witness :
    successRate (0 : Nat) 0 = FVal.nan ∧ report ⟨0, 0, 0⟩ 0 = none :=
  ⟨(report_zero_behavior ⟨0, 0, 0⟩ 0).1 rfl, (report_zero_behavior ⟨0, 0, 0⟩ 0).2.1 rfl⟩

/-- Claim C8: reporting computes the success rate as
`successes / (successes + failures) * 100` and the throughput as
`successes / run_duration_seconds` (integer division), both from the final
merged grand total of the aggregator, and emits them; the rate formula holds
whenever the `u64` denominator addition does not wrap (if it wraps to zero the
program prints an infinite rate instead, per the embedding of `successRate`). -/
theorem report_formulas (samples : List RunDetails) (t : Nat) (ht : t ≠ 0)
    (hb : (aggFinal samples).successes + (aggFinal samples).failures < w64) :
    report (aggFinal samples) t =
      some (successRate (aggFinal samples).successes (aggFinal samples).failures,
        (aggFinal samples).successes / t) ∧
    ((aggFinal samples).successes + (aggFinal samples).failures ≠ 0 →
      successRate (aggFinal samples).successes (aggFinal samples).failures =
        FVal.num (((aggFinal samples).successes : Rat) /
          (((aggFinal samples).successes : Rat) + ((aggFinal samples).failures : Rat)) * 100)) := by
  constructor
  · simp [report, requestsPerSec, ht]
  · intro h
    have hmod : ((aggFinal samples).successes + (aggFinal samples).failures) % w64 =
        (aggFinal samples).successes + (aggFinal samples).failures := Nat.mod_eq_of_lt hb
    unfold successRate
    rw [hmod, if_neg h]
    congr 1
    push_cast
    ring

/-- Witness for `report_formulas`: one success and one failure over a 2-second
run reports a 50 percent rate and zero requests per second. -/
theorem report_formulas_witness :
    report (aggFinal [⟨1, 1, 0⟩]) 2 =
      some (successRate (aggFinal [⟨1, 1, 0⟩]).successes (aggFinal [⟨1, 1, 0⟩]).failures,
        (aggFinal [⟨1, 1, 0⟩]).successes / 2) ∧
    successRate (aggFinal [⟨1, 1, 0⟩]).successes (aggFinal [⟨1, 1, 0⟩]).failures =
      FVal.num (((aggFinal [⟨1, 1, 0⟩]).successes : Rat) /
        (((aggFinal [⟨1, 1, 0⟩]).successes : Rat) + ((aggFinal [⟨1, 1, 0⟩]).failures : Rat)) * 100) :=
  ⟨(report_formulas [⟨1, 1, 0⟩] 2 (by decide) (by decide)).1,
   (report_formulas [⟨1, 1, 0⟩] 2 (by decide) (by decide)).2 (by decide)⟩

/-- Claim C7 counterexample: with one worker that never signals ready, the
coordinator blocks forever on the ready channel instead of aborting, because
`main` keeps its own sender handle alive so the receive can never error out. -/
theorem await_ready_cex : ¬ claimC7 := by
  intro h
  have h2 := h 1 0 (by decide)
  simp [awaitReadyMain, awaitReady] at h2

/-- Claim C7 amended: whenever fewer than `n` ready signals are ever sent, the
AwaitingReady receive in `main` blocks forever (neither aborts nor proceeds),
since the sender handle retained by `main` keeps the channel open; only if
every sender handle were dropped would the receive error out and the `unwrap`
abort loudly. -/
theorem await_ready_hangs (n readySends : Nat) (h : readySends < n) :
    awaitReadyMain n readySends = AwaitOutcome.hangs ∧
    awaitReady n readySends 0 = AwaitOutcome.aborted := by
  constructor
  · simp [awaitReadyMain, awaitReady, Nat.not_le.mpr h]
  · simp [awaitReady, Nat.not_le.mpr h]

/-- Witness for `await_ready_hangs`: one expected worker, zero ready signals. -/
theorem await_ready_hangs_witness :
    awaitReadyMain 1 0 = AwaitOutcome.hangs ∧ awaitReady 1 0 0 = AwaitOutcome.aborted :=
  await_ready_hangs 1 0 (by decide)

/-- Claim C9 counterexample: 1.5 seconds after the last flush is more than one
second of wall-clock time, yet the aggregator does not flush, because the code
compares whole elapsed seconds (`as_secs() > 1`), which requires at least two
full seconds. -/
theorem agg_flush_cex : ¬ claimC9 := by
  intro h
  have h2 := (h.1 ⟨RunDetails.default, RunDetails.default, 0⟩
    (RunDetails.default, 1500000000)).2 (by decide)
  revert h2
  decide

/-- Claim C9 amended: the rolling bucket is printed and reset in the same step,
at most once per arrival, exactly when at least two whole seconds
(`as_secs() > 1`) have elapsed since the last flush; the grand total is the
plain merge-fold of the arriving samples, independent of arrival times and
flushes, so the live progress line never affects the final summary. -/
theorem agg_flush_behavior :
    (∀ (st : AggState) (arr : RunDetails × Nat),
      ((aggStep st arr).2.isSome = true ↔ 2000000000 ≤ arr.2 - st.start) ∧
      ((aggStep st arr).2.isSome = true →
        (aggStep st arr).1.temp = RunDetails.default ∧ (aggStep st arr).1.start = arr.2) ∧
      (aggStep st arr).1.totals = st.totals.addAssign arr.1) ∧
    (∀ (st : AggState) (arrs : List (RunDetails × Nat)),
      (runAgg st arrs).1.totals = List.foldl RunDetails.addAssign st.totals (arrs.map Prod.fst)) := by
  constructor
  · intro st arr
    have hiff : ((arr.2 - st.start) / 1000000000 > 1) ↔ 2000000000 ≤ arr.2 - st.start := by
      constructor
      · intro h
        have h2 : 2 ≤ (arr.2 - st.start) / 1000000000 := h
        have := (Nat.le_div_iff_mul_le (by norm_num : 0 < 1000000000)).mp h2
        omega
      · intro h
        have : 2 ≤ (arr.2 - st.start) / 1000000000 :=
          (Nat.le_div_iff_mul_le (by norm_num : 0 < 1000000000)).mpr (by omega)
        omega
    refine ⟨?_, ?_, ?_⟩
    · unfold aggStep
      split
      · simpa using hiff.mp (by assumption)
      · simp only [Option.isSome_none, Bool.false_eq_true, false_iff]
        intro hc
        exact (by assumption : ¬ (arr.2 - st.start) / 1000000000 > 1) (hiff.mpr hc)
    · unfold aggStep
      split
      · intro _; exact ⟨rfl, rfl⟩
      · intro hc; simp at hc
    · unfold aggStep
      split <;> rfl
  · intro st arrs
    induction arrs generalizing st with
    | nil => rfl
    | cons a rest ih =>
      have hstep : (runAgg st (a :: rest)).1 = (runAgg (aggStep st a).1 rest).1 := rfl
      rw [hstep, ih]
      have htot : (aggStep st a).1.totals = st.totals.addAssign a.1 := by
        unfold aggStep; split <;> rfl
      rw [htot]
      rfl

/-- Witness for `agg_flush_behavior`: a concrete flushing step two seconds
after the previous flush. -/
theorem agg_flush_behavior_witness :
    (aggStep ⟨RunDetails.default, RunDetails.default, 0⟩ (⟨1, 0, 0⟩, 2000000000)).1.temp =
        RunDetails.default ∧
    (aggStep ⟨RunDetails.default, RunDetails.default, 0⟩ (⟨1, 0, 0⟩, 2000000000)).1.totals =
        RunDetails.default.addAssign ⟨1, 0, 0⟩ :=
  ⟨((agg_flush_behavior.1 ⟨RunDetails.default, RunDetails.default, 0⟩
      (⟨1, 0, 0⟩, 2000000000)).2.1 (by decide)).1,
   (agg_flush_behavior.1 ⟨RunDetails.default, RunDetails.default, 0⟩
      (⟨1, 0, 0⟩, 2000000000)).2.2⟩

/-- Claim C10: the all-zero default `RunDetails` is not an identity for the
merge with respect to `duration`: merging any sample `b` into a freshly
defaulted accumulator keeps the success and failure counts exactly but yields
`duration = b.duration / 2`; since the aggregator grand total starts from the
default, the first received sample has its latency halved. -/
theorem default_not_identity :
    (∀ b : RunDetails, b.successes < w64 → b.failures < w64 → b.duration < w128 →
      RunDetails.default.addAssign b = ⟨b.successes, b.failures, b.duration / 2⟩) ∧
    (RunDetails.default.addAssign ⟨0, 0, 10⟩).duration ≠ (10 : Nat) ∧
    (∀ b : RunDetails, aggFinal [b] = RunDetails.default.addAssign b) := by
  refine ⟨?_, by decide, fun b => rfl⟩
  intro b hs hf hd
  simp only [RunDetails.addAssign, RunDetails.default]
  congr 1
  · simpa using Nat.mod_eq_of_lt hs
  · simpa using Nat.mod_eq_of_lt hf
  · rw [Nat.add_zero, Nat.mod_eq_of_lt hd]

/-- Witness for `default_not_identity`: merging `⟨3, 4, 10⟩` into the default
accumulator gives `⟨3, 4, 5⟩`. -/
theorem default_not_identity_witness :
    RunDetails.default.addAssign ⟨3, 4, 10⟩ = ⟨3, 4, 5⟩ :=
  default_not_identity.1 ⟨3, 4, 10⟩ (by decide) (by decide) (by decide)

/-- Helper: total attempts respect list append. -/
theorem sentSum_append (l1 l2 : List RunDetails) :
    sentSum (l1 ++ l2) = sentSum l1 + sentSum l2 := by
  simp [sentSum]

/-- Helper: total attempts split into total successes plus total failures. -/
theorem sentSum_split (l : List RunDetails) :
    sentSum l = (l.map RunDetails.successes).sum + (l.map RunDetails.failures).sum := by
  induction l with
  | nil => rfl
  | cons b rest ih =>
    simp only [sentSum, sfSum, List.map_cons, List.sum_cons] at *
    omega

/-- Helper: total attempts are invariant under permutation of the samples. -/
theorem sentSum_perm {l1 l2 : List RunDetails} (h : l1.Perm l2) :
    sentSum l1 = sentSum l2 :=
  (h.map sfSum).sum_eq

/-- Helper: a member of a list of naturals is at most the sum. -/
theorem mem_le_sum (ls : List Nat) (x : Nat) (h : x ∈ ls) : x ≤ ls.sum := by
  induction ls with
  | nil => cases h
  | cons a rest ih =>
    rcases List.mem_cons.mp h with h1 | h1
    · subst h1; simp
    · have := ih h1
      simp only [List.sum_cons]
      omega

/-- Helper: conservation of counted lookups through the worker pipeline.  As
long as the counters cannot wrap, every recorded lookup sits either in a
forwarded sample or in the still-local details: nothing is double-counted and
nothing disappears inside the pipeline itself. -/
theorem wrun_conserve (tr : List WEv) : ∀ s : WSt,
    sfSum s.loc + sentSum s.sent + recCount tr < w64 →
    sfSum (tr.foldl wstep s).loc + sentSum (tr.foldl wstep s).sent =
      sfSum s.loc + sentSum s.sent + recCount tr := by
  induction tr with
  | nil => intro s _; rfl
  | cons e rest ih =>
    intro s hb
    cases e with
    | record ok lat =>
      have hrc : recCount (WEv.record ok lat :: rest) = recCount rest + 1 := rfl
      rw [hrc] at hb ⊢
      have hstep : (WEv.record ok lat :: rest).foldl wstep s =
          rest.foldl wstep (wstep s (WEv.record ok lat)) := rfl
      have hloc : sfSum (wstep s (WEv.record ok lat)).loc = sfSum s.loc + 1 := by
        cases ok with
        | true =>
          have h1 : s.loc.successes + 1 < w64 := by
            have h2 : s.loc.successes ≤ sfSum s.loc := Nat.le_add_right _ _
            omega
          simp [wstep, performQueriesUpdate, sfSum, Nat.mod_eq_of_lt h1]
          omega
        | false =>
          have h1 : s.loc.failures + 1 < w64 := by
            have h2 : s.loc.failures ≤ sfSum s.loc := Nat.le_add_left _ _
            omega
          simp [wstep, performQueriesUpdate, sfSum, Nat.mod_eq_of_lt h1]
          omega
      have hsent : (wstep s (WEv.record ok lat)).sent = s.sent := by
        cases ok <;> rfl
      rw [hstep, ih (wstep s (WEv.record ok lat)) (by rw [hloc, hsent]; omega), hloc, hsent]
      omega
    | tick =>
      have hstep : (WEv.tick :: rest).foldl wstep s = rest.foldl wstep (wstep s WEv.tick) := rfl
      have hloc : sfSum (wstep s WEv.tick).loc = 0 := rfl
      have hsent : sentSum (wstep s WEv.tick).sent = sentSum s.sent + sfSum s.loc := by
        simp only [wstep]
        rw [sentSum_append]
        simp [sentSum]
      have hrc : recCount (WEv.tick :: rest) = recCount rest := rfl
      rw [hrc] at hb ⊢
      rw [hstep, ih (wstep s WEv.tick) (by rw [hloc, hsent]; omega), hloc, hsent]
      omega
    | setFlag =>
      have hstep : (WEv.setFlag :: rest).foldl wstep s = rest.foldl wstep s := rfl
      have hrc : recCount (WEv.setFlag :: rest) = recCount rest := rfl
      rw [hrc] at hb ⊢
      rw [hstep]
      exact ih s hb

/-- Helper: after a schedule whose sampler ticks once after the stop flag, the
local details are freshly reset. -/
theorem loc_after_final_tick : ∀ (tr : List WEv) (s : WSt), hasFinalTick tr = true →
    (tr.foldl wstep s).loc = RunDetails.default := by
  intro tr
  induction tr with
  | nil => intro s h; simp [hasFinalTick] at h
  | cons e rest ih =>
    intro s h
    cases e with
    | setFlag =>
      have hr : rest = [WEv.tick] := by simpa [hasFinalTick] using h
      subst hr
      rfl
    | record ok lat => exact ih _ (by simpa [hasFinalTick] using h)
    | tick => exact ih _ (by simpa [hasFinalTick] using h)

/-- Helper: the success counter of the aggregator fold is the sum of the
sample success counters, reduced modulo the `u64` width. -/
theorem aggFold_successes (l : List RunDetails) : ∀ a : RunDetails, a.successes < w64 →
    (l.foldl RunDetails.addAssign a).successes =
      (a.successes + (l.map RunDetails.successes).sum) % w64 := by
  induction l with
  | nil => intro a ha; simp [Nat.mod_eq_of_lt ha]
  | cons b rest ih =>
    intro a ha
    have h1 : (RunDetails.addAssign a b).successes = (a.successes + b.successes) % w64 := rfl
    have h2 : (a.successes + b.successes) % w64 < w64 := Nat.mod_lt _ (by decide)
    rw [List.foldl_cons, ih _ (h1 ▸ h2), h1, Nat.mod_add_mod]
    simp [Nat.add_assoc]

/-- Helper: the failure counter of the aggregator fold is the sum of the
sample failure counters, reduced modulo the `u64` width. -/
theorem aggFold_failures (l : List RunDetails) : ∀ a : RunDetails, a.failures < w64 →
    (l.foldl RunDetails.addAssign a).failures =
      (a.failures + (l.map RunDetails.failures).sum) % w64 := by
  induction l with
  | nil => intro a ha; simp [Nat.mod_eq_of_lt ha]
  | cons b rest ih =>
    intro a ha
    have h1 : (RunDetails.addAssign a b).failures = (a.failures + b.failures) % w64 := rfl
    have h2 : (a.failures + b.failures) % w64 < w64 := Nat.mod_lt _ (by decide)
    rw [List.foldl_cons, ih _ (h1 ▸ h2), h1, Nat.mod_add_mod]
    simp [Nat.add_assoc]

/-- Helper: for schedules with a final post-flag tick and no counter overflow,
the samples a worker forwards carry exactly the lookups it counted. -/
theorem sent_eq_recCount (t : List WEv) (hft : hasFinalTick t = true)
    (hb : recCount t < w64) : sentSum (wrun t).sent = recCount t := by
  have hcons := wrun_conserve t ⟨RunDetails.default, []⟩ (by
    simpa [sfSum, sentSum, RunDetails.default] using hb)
  have hloc : (wrun t).loc = RunDetails.default := loc_after_final_tick t _ hft
  unfold wrun at hloc ⊢
  rw [hloc] at hcons
  simp only [sfSum, sentSum, RunDetails.default, List.map_nil, List.sum_nil] at hcons ⊢
  omega

/-- Helper: across a list of worker schedules with final ticks and no
overflow, the flattened forwarded samples carry exactly the total counted
lookups. -/
theorem sent_flatten_eq (ts : List (List WEv))
    (hvalid : ∀ t ∈ ts, validTrace t = true ∧ hasFinalTick t = true)
    (hbound : (ts.map recCount).sum < w64) :
    sentSum ((ts.map (fun t => (wrun t).sent)).flatten) = (ts.map recCount).sum := by
  induction ts with
  | nil => rfl
  | cons t rest ih =>
    simp only [List.map_cons, List.flatten_cons, List.sum_cons] at *
    rw [sentSum_append]
    have hb1 : recCount t < w64 := by omega
    have hb2 : (rest.map recCount).sum < w64 := by omega
    rw [sent_eq_recCount t (hvalid t (List.mem_cons_self t rest)).2 hb1,
      ih (fun u hu => hvalid u (List.mem_cons_of_mem t hu)) hb2]

/-- Claim C1 counterexample: the schedule in which the worker records one
successful lookup and sets the sampler stop flag before the sampler ever runs
again is a complete schedule of the code, yet no sample is ever forwarded: the
final aggregated total is 0 while the worker counted 1 lookup by exit time.
The worker never sends its final local details itself (main.rs:125-127 only
stores the flag and joins), so the claimed exactly-once final send does not
exist and lookups recorded after the last sampler snapshot are lost. -/
theorem worker_final_totals_cex : ¬ claimC1 := by
  intro h
  have h2 := h [WEv.record true 0, WEv.setFlag] (by decide)
  revert h2
  decide

/-- Claim C1 amended: the worker itself never sends a final `RunDetails`; the
remaining counts reach the aggregator only through the last sampler tick.  In
every complete schedule in which each sampler does perform its post-flag tick
(the common timing, since the worker joins the sampler and the sampler always
ticks once more after its in-progress sleep), the successes plus failures of
the aggregator total — over any delivery order of the per-second samples —
equal the sum over all workers of the lookups each worker counted by exit
time, with nothing double-counted and nothing lost; schedules in which a
sampler exits without a post-flag tick may lose the lookups recorded after its
last snapshot, as the counterexample shows. -/
theorem worker_final_totals (ts : List (List WEv)) (stream : List RunDetails)
    (hvalid : ∀ t ∈ ts, validTrace t = true ∧ hasFinalTick t = true)
    (hperm : stream.Perm ((ts.map (fun t => (wrun t).sent)).flatten))
    (hbound : (ts.map recCount).sum < w64) :
    (aggFinal stream).successes + (aggFinal stream).failures = (ts.map recCount).sum := by
  have htot : sentSum stream = (ts.map recCount).sum := by
    rw [sentSum_perm hperm]
    exact sent_flatten_eq ts hvalid hbound
  have hsplit := sentSum_split stream
  have hS : (stream.map RunDetails.successes).sum < w64 := by omega
  have hF : (stream.map RunDetails.failures).sum < w64 := by omega
  have h0 : (RunDetails.default).successes < w64 := by decide
  have h0f : (RunDetails.default).failures < w64 := by decide
  have hs := aggFold_successes stream RunDetails.default h0
  have hf := aggFold_failures stream RunDetails.default h0f
  unfold aggFinal
  rw [hs, hf]
  have hzs : (RunDetails.default).successes = 0 := rfl
  have hzf : (RunDetails.default).failures = 0 := rfl
  rw [hzs, hzf, Nat.zero_add, Nat.zero_add, Nat.mod_eq_of_lt hS, Nat.mod_eq_of_lt hF]
  omega

/-- Witness for `worker_final_totals`: one worker records one success, the
stop flag is set, and the sampler performs its final tick; the single
forwarded sample aggregates to a total of exactly one lookup. -/
theorem worker_final_totals_witness :
    (aggFinal [⟨1, 0, 0⟩]).successes + (aggFinal [⟨1, 0, 0⟩]).failures =
      ([[WEv.record true 0, WEv.setFlag, WEv.tick]].map recCount).sum := by
  have h := worker_final_totals [[WEv.record true 0, WEv.setFlag, WEv.tick]] [⟨1, 0, 0⟩]
    (by decide) (by decide) (by decide)
  exact h

/-- Helper: an execution over a concatenation splits at an intermediate
state. -/
theorem reach_append_split {n : Nat} {s u : St n} :
    ∀ {t1 t2 : List (Lab n)}, Reach s (t1 ++ t2) u →
      ∃ m : St n, Reach s t1 m ∧ Reach m t2 u := by
  intro t1
  induction t1 generalizing s with
  | nil => intro t2 h; exact ⟨s, Reach.refl s, h⟩
  | cons l ls ih =>
    intro t2 h
    rw [List.cons_append] at h
    cases h with
    | head hstep hrest =>
      obtain ⟨m, hm1, hm2⟩ := ih hrest
      exact ⟨m, Reach.head hstep hm1, hm2⟩

/-- Helper: how one step changes the barrier-released flag. -/
theorem step_released {n : Nat} {s t : St n} {l : Lab n} (h : Step s l t) :
    (s.released = true → t.released = true) ∧
    (t.released = true → s.released = true ∨ l = Lab.release) := by
  cases h <;> simp

/-- Helper: a step that is not the release keeps the released flag. -/
theorem step_released_eq {n : Nat} {s t : St n} {l : Lab n} (h : Step s l t)
    (hne : l ≠ Lab.release) : t.released = s.released := by
  cases h <;> first | rfl | exact absurd rfl hne

/-- Helper: how one step changes the termination flag. -/
theorem step_term {n : Nat} {s t : St n} {l : Lab n} (h : Step s l t) :
    (s.term = true → t.term = true) ∧
    (t.term = true → s.term = true ∨ l = Lab.setTerm) := by
  cases h <;> simp

/-- Helper: a step that is not the flag store keeps the termination flag. -/
theorem step_term_eq {n : Nat} {s t : St n} {l : Lab n} (h : Step s l t)
    (hne : l ≠ Lab.setTerm) : t.term = s.term := by
  cases h <;> first | rfl | exact absurd rfl hne

/-- Helper: the released flag is monotone along executions. -/
theorem reach_released_mono {n : Nat} {s u : St n} {tr : List (Lab n)}
    (h : Reach s tr u) : s.released = true → u.released = true := by
  induction h with
  | refl s => exact id
  | head hstep hrest ih => exact fun hs => ih ((step_released hstep).1 hs)

/-- Helper: if the release label occurs, the final state is released. -/
theorem reach_released_of_mem {n : Nat} {s u : St n} {tr : List (Lab n)}
    (h : Reach s tr u) : Lab.release ∈ tr → u.released = true := by
  induction h with
  | refl s => intro hm; cases hm
  | @head s t u l tr hstep hrest ih =>
    intro hm
    rcases List.mem_cons.mp hm with h1 | h1
    · have h2 : t.released = true := by
        cases h1 ▸ hstep; rfl
      exact reach_released_mono hrest h2
    · exact ih h1

/-- Helper: a released final state traces back to a released start or a
release label. -/
theorem reach_released_src {n : Nat} {s u : St n} {tr : List (Lab n)}
    (h : Reach s tr u) : u.released = true → s.released = true ∨ Lab.release ∈ tr := by
  induction h with
  | refl s => exact fun hu => Or.inl hu
  | @head s t u l tr hstep hrest ih =>
    intro hu
    rcases ih hu with h1 | h1
    · rcases (step_released hstep).2 h1 with h2 | h2
      · exact Or.inl h2
      · exact Or.inr (by rw [h2]; exact List.mem_cons_self _ _)
    · exact Or.inr (List.mem_cons_of_mem _ h1)

/-- Helper: the termination flag is monotone along executions. -/
theorem reach_term_mono {n : Nat} {s u : St n} {tr : List (Lab n)}
    (h : Reach s tr u) : s.term = true → u.term = true := by
  induction h with
  | refl s => exact id
  | head hstep hrest ih => exact fun hs => ih ((step_term hstep).1 hs)

/-- Helper: if the flag-store label occurs, the final state has the flag. -/
theorem reach_term_of_mem {n : Nat} {s u : St n} {tr : List (Lab n)}
    (h : Reach s tr u) : Lab.setTerm ∈ tr → u.term = true := by
  induction h with
  | refl s => intro hm; cases hm
  | @head s t u l tr hstep hrest ih =>
    intro hm
    rcases List.mem_cons.mp hm with h1 | h1
    · have h2 : t.term = true := by
        cases h1 ▸ hstep; rfl
      exact reach_term_mono hrest h2
    · exact ih h1

/-- Helper: a set termination flag traces back to a set start or a flag-store
label. -/
theorem reach_term_src {n : Nat} {s u : St n} {tr : List (Lab n)}
    (h : Reach s tr u) : u.term = true → s.term = true ∨ Lab.setTerm ∈ tr := by
  induction h with
  | refl s => exact fun hu => Or.inl hu
  | @head s t u l tr hstep hrest ih =>
    intro hu
    rcases ih hu with h1 | h1
    · rcases (step_term hstep).2 h1 with h2 | h2
      · exact Or.inl h2
      · exact Or.inr (by rw [h2]; exact List.mem_cons_self _ _)
    · exact Or.inr (List.mem_cons_of_mem _ h1)

/-- Helper: from a released state no further release label occurs. -/
theorem reach_release_count_zero {n : Nat} {s u : St n} {tr : List (Lab n)}
    (h : Reach s tr u) : s.released = true → countE Lab.release tr = 0 := by
  induction h with
  | refl s => intro _; rfl
  | @head s t u l tr hstep hrest ih =>
    intro hs
    by_cases hl : l = Lab.release
    · subst hl
      cases hstep with
      | release hg hg2 => rw [hg2] at hs; exact Bool.noConfusion hs
    · have ht : t.released = true := (step_released hstep).1 hs
      simp only [countE, if_neg hl, Nat.zero_add]
      exact ih ht

/-- Helper: the barrier is released at most once in any execution. -/
theorem reach_release_count {n : Nat} {s u : St n} {tr : List (Lab n)}
    (h : Reach s tr u) : s.released = false → countE Lab.release tr ≤ 1 := by
  induction h with
  | refl s => intro _; exact Nat.zero_le 1
  | @head s t u l tr hstep hrest ih =>
    intro hs
    by_cases hl : l = Lab.release
    · subst hl
      have ht : t.released = true := by
        cases hstep; rfl
      have h0 := reach_release_count_zero hrest ht
      simp [countE, h0]
    · have ht : t.released = false := by rw [step_released_eq hstep hl, hs]
      simp only [countE, if_neg hl, Nat.zero_add]
      exact ih ht

/-- Helper: from a state with the termination flag set no further flag-store
label occurs. -/
theorem reach_setTerm_count_zero {n : Nat} {s u : St n} {tr : List (Lab n)}
    (h : Reach s tr u) : s.term = true → countE Lab.setTerm tr = 0 := by
  induction h with
  | refl s => intro _; rfl
  | @head s t u l tr hstep hrest ih =>
    intro hs
    by_cases hl : l = Lab.setTerm
    · subst hl
      cases hstep with
      | setTerm hg hg2 => rw [hg2] at hs; exact Bool.noConfusion hs
    · have ht : t.term = true := (step_term hstep).1 hs
      simp only [countE, if_neg hl, Nat.zero_add]
      exact ih ht

/-- Helper: the termination flag is stored at most once in any execution. -/
theorem reach_setTerm_count {n : Nat} {s u : St n} {tr : List (Lab n)}
    (h : Reach s tr u) : s.term = false → countE Lab.setTerm tr ≤ 1 := by
  induction h with
  | refl s => intro _; exact Nat.zero_le 1
  | @head s t u l tr hstep hrest ih =>
    intro hs
    by_cases hl : l = Lab.setTerm
    · subst hl
      have ht : t.term = true := by
        cases hstep; rfl
      have h0 := reach_setTerm_count_zero hrest ht
      simp [countE, h0]
    · have ht : t.term = false := by rw [step_term_eq hstep hl, hs]
      simp only [countE, if_neg hl, Nat.zero_add]
      exact ih ht

/-- Helper: ready sends decompose a cons through the indicator. -/
theorem countSends_cons {n : Nat} (l : Lab n) (tr : List (Lab n)) :
    countSends (l :: tr) = sendIndicator l + countSends tr := by
  cases l <;> simp [countSends, sendIndicator]

/-- Helper: one step changes receives plus pending sends by the send
indicator of its label. -/
theorem step_recv_pending {n : Nat} {s t : St n} {l : Lab n} (h : Step s l t) :
    t.recvs + t.pendingReady = s.recvs + s.pendingReady + sendIndicator l := by
  cases h <;> simp [sendIndicator] <;> omega

/-- Helper: receives plus pending sends equal the starting amount plus the
ready sends of the execution. -/
theorem reach_recv_pending {n : Nat} {s u : St n} {tr : List (Lab n)}
    (h : Reach s tr u) :
    u.recvs + u.pendingReady = s.recvs + s.pendingReady + countSends tr := by
  induction h with
  | refl s => rfl
  | @head s t u l tr hstep hrest ih =>
    rw [countSends_cons, ih, step_recv_pending hstep]
    omega

/-- Helper: a step preserves having left the start phase. -/
theorem step_phase_ne_start {n : Nat} {s t : St n} {l : Lab n} (h : Step s l t)
    (i : Fin n) (hi : s.phase i ≠ WPhase.start) : t.phase i ≠ WPhase.start := by
  cases h with
  | sendReady j hj =>
    by_cases hij : i = j
    · subst hij; simp [Function.update_same]
    · simpa [Function.update_noteq hij] using hi
  | acquireB j hj hr =>
    by_cases hij : i = j
    · subst hij; simp [Function.update_same]
    · simpa [Function.update_noteq hij] using hi
  | exitLoop j hj hf ht =>
    by_cases hij : i = j
    · subst hij; simp [Function.update_same]
    · simpa [Function.update_noteq hij] using hi
  | recvReady h1 h2 => exact hi
  | release h1 h2 => exact hi
  | startIter j h1 h2 h3 => exact hi
  | endIterRun j h1 h2 => exact hi
  | endIterTerm j h1 h2 => exact hi
  | setTerm h1 h2 => exact hi

/-- Helper: a worker that has left the start phase sends no further ready
signal. -/
theorem reach_sendReady_zero {n : Nat} {s u : St n} {tr : List (Lab n)}
    (i : Fin n) (h : Reach s tr u) :
    s.phase i ≠ WPhase.start → countE (Lab.sendReady i) tr = 0 := by
  induction h with
  | refl s => intro _; rfl
  | @head s t u l tr hstep hrest ih =>
    intro hi
    by_cases hl : l = Lab.sendReady i
    · subst hl
      cases hstep with
      | sendReady j hj => exact absurd hj hi
    · simp only [countE, if_neg hl, Nat.zero_add]
      exact ih (step_phase_ne_start hstep i hi)

/-- Helper: each worker sends its ready signal at most once. -/
theorem reach_sendReady_le_one {n : Nat} {s u : St n} {tr : List (Lab n)}
    (i : Fin n) (h : Reach s tr u) : countE (Lab.sendReady i) tr ≤ 1 := by
  induction h with
  | refl s => exact Nat.zero_le 1
  | @head s t u l tr hstep hrest ih =>
    by_cases hl : l = Lab.sendReady i
    · subst hl
      have ht : t.phase i ≠ WPhase.start := by
        cases hstep with
        | sendReady j hj => simp [Function.update_same]
      have h0 := reach_sendReady_zero i hrest ht
      simp [countE, h0]
    · simp only [countE, if_neg hl, Nat.zero_add]
      exact ih

/-- Helper: the indicator as a sum over workers. -/
theorem sum_indicator {n : Nat} (l : Lab n) :
    (∑ i : Fin n, if l = Lab.sendReady i then 1 else 0) = sendIndicator l := by
  cases l with
  | sendReady j =>
    simp only [Lab.sendReady.injEq]
    rw [Finset.sum_ite_eq]
    simp [sendIndicator]
  | recvReady => simp [sendIndicator]
  | release => simp [sendIndicator]
  | acquireB j => simp [sendIndicator]
  | startIter j => simp [sendIndicator]
  | endIter j => simp [sendIndicator]
  | exitLoop j => simp [sendIndicator]
  | setTerm => simp [sendIndicator]

/-- Helper: total ready sends split into per-worker counts. -/
theorem countSends_eq_sum {n : Nat} (tr : List (Lab n)) :
    countSends tr = ∑ i : Fin n, countE (Lab.sendReady i) tr := by
  induction tr with
  | nil => simp [countSends, countE]
  | cons l rest ih =>
    rw [countSends_cons]
    have hc : ∀ i : Fin n, countE (Lab.sendReady i) (l :: rest) =
        (if l = Lab.sendReady i then 1 else 0) + countE (Lab.sendReady i) rest :=
      fun i => rfl
    calc sendIndicator l + countSends rest
        = (∑ i : Fin n, if l = Lab.sendReady i then 1 else 0) +
            ∑ i : Fin n, countE (Lab.sendReady i) rest := by rw [sum_indicator, ih]
      _ = ∑ i : Fin n, ((if l = Lab.sendReady i then 1 else 0) +
            countE (Lab.sendReady i) rest) := (Finset.sum_add_distrib).symm
      _ = ∑ i : Fin n, countE (Lab.sendReady i) (l :: rest) := by
            exact Finset.sum_congr rfl (fun i _ => (hc i).symm)

/-- Helper: an element with no occurrences is absent. -/
theorem countE_zero_of_not_mem {α : Type} [DecidableEq α] (e : α) (l : List α)
    (h : e ∉ l) : countE e l = 0 := by
  induction l with
  | nil => rfl
  | cons x xs ih =>
    simp only [countE]
    have hx : ¬ (x = e) := fun hxe => h (hxe ▸ List.mem_cons_self x xs)
    rw [if_neg hx, ih (fun hm => h (List.mem_cons_of_mem x hm))]

/-- Helper: a present element has at least one occurrence. -/
theorem countE_pos_of_mem {α : Type} [DecidableEq α] {e : α} {l : List α}
    (h : e ∈ l) : 1 ≤ countE e l := by
  induction l with
  | nil => cases h
  | cons x xs ih =>
    simp only [countE]
    rcases List.mem_cons.mp h with h1 | h1
    · rw [if_pos h1.symm]; omega
    · have := ih h1; omega

/-- Helper: when the coordinator has completed its `n` receives, every worker
has sent its ready signal. -/
theorem recvs_n_all_sent {n : Nat} {m : St n} {t1 : List (Lab n)}
    (h : Reach (initSt n) t1 m) (hrecv : m.recvs = n) :
    ∀ i : Fin n, Lab.sendReady i ∈ t1 := by
  intro i
  have hacc := reach_recv_pending h
  have hcs : n ≤ countSends t1 := by
    simp only [initSt] at hacc
    omega
  have hsum := countSends_eq_sum t1
  by_contra hmem
  have hzero : countE (Lab.sendReady i) t1 = 0 := countE_zero_of_not_mem _ _ hmem
  have hlt : (∑ j : Fin n, countE (Lab.sendReady j) t1) < ∑ _j : Fin n, 1 := by
    apply Finset.sum_lt_sum
    · intro j _; exact reach_sendReady_le_one j h
    · exact ⟨i, Finset.mem_univ i, by omega⟩
  rw [Finset.sum_const, Finset.card_univ, Fintype.card_fin, smul_eq_mul, mul_one] at hlt
  omega

/-- Helper: one step preserves the barrier invariant. -/
theorem step_goodR {n : Nat} {s t : St n} {l : Lab n} (h : Step s l t)
    (hg : GoodR s) : GoodR t := by
  cases h with
  | sendReady j hj =>
    intro i hi
    by_cases hij : i = j
    · subst hij
      simp only [Function.update_same] at hi
      rcases hi with h1 | h1 <;> exact WPhase.noConfusion h1
    · simp only [Function.update_noteq hij] at hi
      exact hg i hi
  | recvReady h1 h2 => exact fun i hi => hg i hi
  | release h1 h2 => exact fun i _ => rfl
  | acquireB j hj hr => exact fun i _ => hr
  | startIter j h1 h2 h3 => exact fun i hi => hg i hi
  | endIterRun j h1 h2 => exact fun i hi => hg i hi
  | endIterTerm j h1 h2 => exact fun i hi => hg i hi
  | exitLoop j hj hf ht => exact fun i _ => hg j (Or.inl hj)
  | setTerm h1 h2 => exact fun i hi => hg i hi

/-- Helper: the barrier invariant holds along executions. -/
theorem reach_goodR {n : Nat} {s u : St n} {tr : List (Lab n)}
    (h : Reach s tr u) : GoodR s → GoodR u := by
  induction h with
  | refl s => exact id
  | @head s t u l tr hstep hrest ih => exact fun hg => ih (step_goodR hstep hg)

/-- Helper: the barrier invariant holds initially. -/
theorem goodR_init (n : Nat) : GoodR (initSt n) := by
  intro i hi
  rcases hi with h1 | h1 <;> exact WPhase.noConfusion h1

/-- Helper: one step preserves the termination-counting invariant. -/
theorem step_goodT {n : Nat} {s t : St n} {l : Lab n} (h : Step s l t)
    (hg : GoodT s) : GoodT t := by
  cases h with
  | sendReady j hj => exact fun i => hg i
  | recvReady h1 h2 => exact fun i => hg i
  | release h1 h2 => exact fun i => hg i
  | acquireB j hj hr => exact fun i => hg i
  | startIter j hj hf ht =>
    intro i
    refine ⟨(hg i).1, ?_, (hg i).2.2⟩
    intro hif
    by_cases hij : i = j
    · subst hij
      exact (hg i).1 ht
    · simp only [Function.update_noteq hij] at hif
      exact (hg i).2.1 hif
  | endIterRun j hf ht =>
    intro i
    refine ⟨(hg i).1, ?_, (hg i).2.2⟩
    intro hif
    by_cases hij : i = j
    · subst hij
      simp only [Function.update_same] at hif
      exact Bool.noConfusion hif
    · simp only [Function.update_noteq hij] at hif
      exact (hg i).2.1 hif
  | endIterTerm j hf ht =>
    intro i
    by_cases hij : i = j
    · subst hij
      refine ⟨?_, ?_, ?_⟩
      · intro h1; rw [ht] at h1; exact Bool.noConfusion h1
      · intro hif
        simp only [Function.update_same] at hif
        exact Bool.noConfusion hif
      · simp [Function.update_same, (hg i).2.1 hf]
    · refine ⟨?_, ?_, ?_⟩
      · intro h1; rw [ht] at h1; exact Bool.noConfusion h1
      · intro hif
        simp only [Function.update_noteq hij] at hif ⊢
        exact (hg i).2.1 hif
      · simp only [Function.update_noteq hij]
        exact (hg i).2.2
  | exitLoop j hj hf ht => exact fun i => hg i
  | setTerm hr ht =>
    intro i
    refine ⟨?_, (hg i).2.1, (hg i).2.2⟩
    intro h1
    exact Bool.noConfusion h1

/-- Helper: the termination-counting invariant holds along executions. -/
theorem reach_goodT {n : Nat} {s u : St n} {tr : List (Lab n)}
    (h : Reach s tr u) : GoodT s → GoodT u := by
  induction h with
  | refl s => exact id
  | @head s t u l tr hstep hrest ih => exact fun hg => ih (step_goodT hstep hg)

/-- Helper: the termination-counting invariant holds initially. -/
theorem goodT_init (n : Nat) : GoodT (initSt n) :=
  fun _ => ⟨fun _ => rfl, fun _ => rfl, Nat.zero_le 1⟩

/-- Claim C5: in every execution of the coordination model the barrier is
released at most once; wherever the release occurs, all `n` workers have
already signaled ready (the coordinator performs its `n` channel receives
first, and each receive needs a distinct worker send); and wherever any worker
begins a lookup-loop iteration, the release has already occurred — exactly
once in the whole execution. -/
theorem start_barrier_gates_iterations {n : Nat} (tr : List (Lab n)) (s : St n)
    (hr : Reach (initSt n) tr s) :
    countE Lab.release tr ≤ 1 ∧
    (∀ t1 t2 : List (Lab n), tr = t1 ++ Lab.release :: t2 →
      ∀ i : Fin n, Lab.sendReady i ∈ t1) ∧
    (∀ (i : Fin n) (t1 t2 : List (Lab n)), tr = t1 ++ Lab.startIter i :: t2 →
      Lab.release ∈ t1 ∧ countE Lab.release tr = 1) := by
  refine ⟨reach_release_count hr rfl, ?_, ?_⟩
  · intro t1 t2 hdec i
    subst hdec
    obtain ⟨m, h1, h2⟩ := reach_append_split hr
    cases h2 with
    | head hstep hrest =>
      cases hstep with
      | release hrecv hrel => exact recvs_n_all_sent h1 hrecv i
  · intro i t1 t2 hdec
    have hmem : Lab.release ∈ t1 := by
      subst hdec
      obtain ⟨m, h1, h2⟩ := reach_append_split hr
      cases h2 with
      | head hstep hrest =>
        have hrel : m.released = true := by
          cases hstep with
          | startIter j hph hf ht =>
            exact reach_goodR h1 (goodR_init n) _ (Or.inl hph)
        rcases reach_released_src h1 hrel with hcase | hcase
        · exact absurd hcase (by simp [initSt])
        · exact hcase
    refine ⟨hmem, ?_⟩
    have hpos : 1 ≤ countE Lab.release tr := by
      apply countE_pos_of_mem
      rw [hdec]
      exact List.mem_append_left _ hmem
    have hle := reach_release_count hr rfl
    omega

/-- Witness for `start_barrier_gates_iterations` on a concrete one-worker
execution: ready send, coordinator receive, barrier release, barrier
acquisition, then the first loop iteration; the release precedes the iteration
and occurred exactly once. -/
theorem start_barrier_witness :
    Lab.release ∈ ([Lab.sendReady 0, Lab.recvReady, Lab.release,
        Lab.acquireB 0] : List (Lab 1)) ∧
    countE Lab.release ([Lab.sendReady 0, Lab.recvReady, Lab.release,
        Lab.acquireB 0, Lab.startIter 0] : List (Lab 1)) = 1 := by
  have hreach := Reach.head (Step.sendReady (initSt 1) 0 rfl)
    (Reach.head (Step.recvReady _ (by decide) (by decide))
      (Reach.head (Step.release _ (by decide) (by decide))
        (Reach.head (Step.acquireB _ 0 (by decide) (by decide))
          (Reach.head (Step.startIter _ 0 (by decide) (by decide) (by decide))
            (Reach.refl _)))))
  exact (start_barrier_gates_iterations _ _ hreach).2.2 0
    [Lab.sendReady 0, Lab.recvReady, Lab.release, Lab.acquireB 0] [] rfl

/-- Claim C6: the termination flag starts false, is stored at most once by the
coordinator (whose program order places the store after the release), is set
in the final state exactly when the store occurred — so it is never reset —
and, since each worker re-reads the flag only at iteration boundaries and
never mid-request, every worker completes at most one in-flight lookup after
the flag is set. -/
theorem termination_flag_protocol {n : Nat} (tr : List (Lab n)) (s : St n)
    (hr : Reach (initSt n) tr s) :
    (initSt n).term = false ∧
    countE Lab.setTerm tr ≤ 1 ∧
    (s.term = true ↔ Lab.setTerm ∈ tr) ∧
    (∀ i : Fin n, s.doneAfterTerm i ≤ 1) := by
  refine ⟨rfl, reach_setTerm_count hr rfl, ⟨?_, ?_⟩, ?_⟩
  · intro ht
    rcases reach_term_src hr ht with h1 | h1
    · exact absurd h1 (by simp [initSt])
    · exact h1
  · exact fun hm => reach_term_of_mem hr hm
  · exact fun i => (reach_goodT hr (goodT_init n) i).2.2

/-- Witness for `termination_flag_protocol` on a concrete one-worker
execution in which the flag is stored while a lookup is in flight; that lookup
completes and the worker exits its loop. -/
theorem termination_flag_witness :
    countE Lab.setTerm ([Lab.sendReady 0, Lab.recvReady, Lab.release,
        Lab.acquireB 0, Lab.startIter 0, Lab.setTerm, Lab.endIter 0,
        Lab.exitLoop 0] : List (Lab 1)) ≤ 1 := by
  have hreach := Reach.head (Step.sendReady (initSt 1) 0 rfl)
    (Reach.head (Step.recvReady _ (by decide) (by decide))
      (Reach.head (Step.release _ (by decide) (by decide))
        (Reach.head (Step.acquireB _ 0 (by decide) (by decide))
          (Reach.head (Step.startIter _ 0 (by decide) (by decide) (by decide))
            (Reach.head (Step.setTerm _ (by decide) (by decide))
              (Reach.head (Step.endIterTerm _ 0 (by decide) (by decide))
                (Reach.head (Step.exitLoop _ 0 (by decide) (by decide) (by decide))
                  (Reach.refl _))))))))
  exact (termination_flag_protocol _ _ hreach).2.1
